import Mathlib

/-!
Shallow embedding of the trial-selection and sampling core of
nips2018/movie/parameters.py: the stimulus-type constraint masks of
StimulusTypeMixin.get_constraint, the shrink_to_same_size mask
equalization loop and the per-dataset sampler selection of
StimulusTypeMixin.get_loaders, BalancedSubsetSampler, and the group
assignment of DataConfig.AreaLayerSplitRawInputResponse.load_data.
Strings are modelled as lists of characters and numpy boolean vectors as
lists of booleans.
-/

/-- Python str.split with a one-character separator: splits on every
occurrence of the separator, keeping empty pieces. Models the call
stimulus_type.split of get_constraint. -/
def splitOnSep (sep : Char) : List Char → List (List Char)
  | [] => [[]]
  | c :: rest =>
    match splitOnSep sep rest with
    | [] => [[c]]
    | t :: ts => if c = sep then [] :: t :: ts else (c :: t) :: ts

/-- Python str.strip on a character list: whitespace removed from both
ends, applied to each token of a stimulus-type expression. -/
def trimChars (s : List Char) : List Char :=
  ((s.dropWhile Char.isWhitespace).reverse.dropWhile Char.isWhitespace).reverse

/-- One token of a stimulus-type expression matched against one trial
type: a leading tilde negates equality, otherwise the token must equal
the trial type. -/
def tokMatch (tok ty : List Char) : Bool :=
  match tok with
  | '~' :: rest => !(decide (ty = rest))
  | _ => decide (ty = tok)

/-- The OR accumulation of per-token constraint vectors in
get_constraint: the constraint starts all false and each token vector is
ORed in. -/
def unionConstraint (types : List (List Char)) (toks : List (List Char)) : List Bool :=
  toks.foldl (fun acc tok => List.zipWith or acc (types.map (fun ty => tokMatch tok ty)))
    (types.map (fun _ => false))

/-- StimulusTypeMixin.get_constraint: split the expression on the pipe
character, strip each token, OR the per-token vectors together, and AND
with the tier filter when a tier is given. -/
def getConstraint (types tiers : List (List Char)) (stimulus_type : List Char)
    (tier : Option (List Char)) : List Bool :=
  let toks := (splitOnSep '|' stimulus_type).map trimChars
  let constraint := unionConstraint types toks
  match tier with
  | none => constraint
  | some t => List.zipWith and constraint (tiers.map (fun ti => decide (ti = t)))

/-- Number of selected trials of a mask, numpy mask.sum(). -/
def countTrue (c : List Bool) : Nat := c.count true

/-- np.where(constraint)[0]: the positions of the true entries. -/
def trueIndices (c : List Bool) : List Nat :=
  (List.range c.length).filter (fun i => c.getD i false)

/-- Running-count helper for the expression c & (c.cumsum() <= min_n):
an entry stays true only while the inclusive running count of true
entries is at most m. -/
def truncAux (m : Nat) (acc : Nat) : List Bool → List Bool
  | [] => []
  | b :: rest =>
    let acc2 := acc + (if b then 1 else 0)
    (b && decide (acc2 ≤ m)) :: truncAux m acc2 rest

/-- c & (c.cumsum() <= min_n): keep only the first m true entries of the
mask, in trial order. -/
def truncMask (c : List Bool) (m : Nat) : List Bool := truncAux m 0 c

/-- untouched = (c == c2): elementwise equality of the old and the new
mask. -/
def untouchedVec (c c2 : List Bool) : List Bool :=
  List.zipWith (fun x y => x == y) c c2

/-- c3 &= untouched: AND a later mask with an untouched vector. -/
def applyUntouched (u : List Bool) (c : List Bool) : List Bool :=
  List.zipWith and c u

/-- Left fold with Nat.min, the shape of Python min over a nonempty
list of values. -/
def foldMin (v : Nat) (vs : List Nat) : Nat := vs.foldl min v

/-- Left fold with Nat.max, the shape of Python max over a nonempty
list of values. -/
def foldMax (v : Nat) (vs : List Nat) : Nat := vs.foldl max v

/-- np.min over the true counts of the constraint masks. -/
def minTrueCount (cs : List (List Bool)) : Nat :=
  match cs.map countTrue with
  | [] => 0
  | v :: vs => foldMin v vs

/-- The body of the shrink_to_same_size loop of get_loaders, with an
explicit fuel equal to the number of remaining masks: a mask whose
expression has no pipe is truncated to its first min_n true entries, a
mask with a pipe is kept as it currently stands, and the untouched
vector of each resolved mask is ANDed into every later mask. -/
def shrinkLoopAux (m : Nat) : Nat → List (List Bool × List Char) → List (List Bool)
  | _, [] => []
  | 0, _ :: _ => []
  | k + 1, (c, st) :: rest =>
    let c2 := if ('|' : Char) ∈ st then c else truncMask c m
    let u := untouchedVec c c2
    c2 :: shrinkLoopAux m k (rest.map (fun p => (applyUntouched u p.1, p.2)))

/-- The shrink loop started with fuel covering every mask. -/
def shrinkLoop (m : Nat) (l : List (List Bool × List Char)) : List (List Bool) :=
  shrinkLoopAux m l.length l

/-- The shrink_to_same_size equalization of get_loaders over the
constraint masks paired with their stimulus-type expressions. -/
def equalize (cs : List (List Bool)) (sts : List (List Char)) : List (List Bool) :=
  shrinkLoop (minTrueCount cs) (cs.zip sts)

/-- The tier gate around the equalization: it runs only when the flag is
set and the tier is None, train, or validation. -/
def shrinkToSameSize (shrink : Bool) (tier : Option (List Char))
    (cs : List (List Bool)) (sts : List (List Char)) : List (List Bool) :=
  if shrink = true ∧ (tier = none ∨ tier = some "train".data ∨ tier = some "validation".data)
  then equalize cs sts else cs

/-- Two masks with no common true position. -/
def maskDisjoint (c d : List Bool) : Bool :=
  (List.zipWith and c d).all (fun b => !b)

/-- The sampling mode string of BalancedSubsetSampler. -/
inductive SamplingMode
  | shortest
  | longest
deriving DecidableEq

/-- The state built by BalancedSubsetSampler.__init__. -/
structure BalancedSampler (α : Type) where
  indices : List Nat
  num_samples : Nat
  replacement : Bool
  weights : List ℚ

/-- types[indices]: the type label of each selected index. -/
def selectedTypes {α : Type} [Inhabited α] (indices : List Nat) (types : List α) : List α :=
  indices.map (fun i => types.getD i default)

/-- The values of Counter(types[indices]): one count per distinct
selected label. -/
def categoryCounts {α : Type} [DecidableEq α] [Inhabited α]
    (indices : List Nat) (types : List α) : List Nat :=
  ((selectedTypes indices types).dedup).map (fun a => (selectedTypes indices types).count a)

/-- The per-index weights 1 / count of the own category. -/
def balancedWeights {α : Type} [DecidableEq α] [Inhabited α]
    (indices : List Nat) (types : List α) : List ℚ :=
  (selectedTypes indices types).map (fun a => 1 / ((selectedTypes indices types).count a : ℚ))

/-- BalancedSubsetSampler.__init__: num_samples is the minimum category
count, without replacement, in shortest mode, and the maximum category
count, with replacement, in longest mode; none when no index is selected
because Python min or max of an empty collection raises. -/
def mkBalancedSubsetSampler {α : Type} [DecidableEq α] [Inhabited α] (indices : List Nat)
    (types : List α) (mode : SamplingMode) : Option (BalancedSampler α) :=
  match mode, categoryCounts indices types with
  | _, [] => none
  | SamplingMode.longest, v :: vs =>
    some ⟨indices, foldMax v vs, true, balancedWeights indices types⟩
  | SamplingMode.shortest, v :: vs =>
    some ⟨indices, foldMin v vs, false, balancedWeights indices types⟩

/-- Group sizes in AreaLayerSplitRawInputResponse.load_data: each of the
first T - 1 groups takes n / T members and the last group takes the
remainder. -/
def groupSizes (T n : Nat) : List Nat :=
  (List.range T).map (fun i => if i < T - 1 then n / T else n - (T - 1) * (n / T))

/-- The assert, token rotation, and replication of
AreaLayerSplitRawInputResponse.load_data: with too few member datasets
the assert fires, otherwise each member dataset receives the token of
its contiguous group, the token list having been rotated left by
permute mod T. -/
def assignStimulusTypes (t : List (List Char)) (n : Nat) (permuteKey : Nat) :
    Except String (List (List Char)) :=
  let T := t.length
  let permute := permuteKey % T
  if 1 ≤ n / T then
    Except.ok (List.flatten (List.zipWith List.replicate (groupSizes T n)
      (t.drop permute ++ t.take permute)))
  else Except.error "not enough member datasets to do splits"

/-- The three sampler variants constructed by get_loaders. -/
inductive SamplerChoice
  | subsetRandom (indices : List Nat)
  | balancedSubset (indices : List Nat) (types : List (List Char))
  | subsetSequential (indices : List Nat)

/-- The Clip-versus-Noise coalescing applied when merge_noise_types is
set. -/
def coalesceNoise (t : List Char) : List Char :=
  if t = "stimulus.Clip".data then "Clip".data else "Noise".data

/-- The per-dataset sampler selection of get_loaders: the train tier
takes a random subset sampler, or a balanced one when balanced is set,
in which case the coalesced types vector exists only when
merge_noise_types is set; its absence is the unbound local variable of
the source. Every other tier takes the sequential sampler. -/
def chooseSampler (tier : Option (List Char)) (balanced merge_noise_types : Bool)
    (constraint : List Bool) (dataset_types : List (List Char)) :
    Except String SamplerChoice :=
  let ix := trueIndices constraint
  if tier = some "train".data then
    if balanced = false then Except.ok (SamplerChoice.subsetRandom ix)
    else
      match (if merge_noise_types = true
             then some (dataset_types.map coalesceNoise)
             else none : Option (List (List Char))) with
      | some types => Except.ok (SamplerChoice.balancedSubset ix types)
      | none => Except.error "UnboundLocalError: types"
  else Except.ok (SamplerChoice.subsetSequential ix)

theorem splitOnSep_ne_nil (sep : Char) (l : List Char) : splitOnSep sep l ≠ [] := by
  cases l with
  | nil => simp [splitOnSep]
  | cons c rest =>
    simp only [splitOnSep]
    cases h : splitOnSep sep rest with
    | nil => simp
    | cons t ts => by_cases hc : c = sep <;> simp [hc]

theorem splitOnSep_append (sep : Char) (a b : List Char) :
    splitOnSep sep (a ++ sep :: b) = splitOnSep sep a ++ splitOnSep sep b := by
  induction a with
  | nil =>
    simp only [List.nil_append, splitOnSep]
    cases h : splitOnSep sep b with
    | nil => exact absurd h (splitOnSep_ne_nil sep b)
    | cons t ts => simp
  | cons c a ih =>
    simp only [List.cons_append, splitOnSep, List.append_eq]
    rw [ih]
    cases h : splitOnSep sep a with
    | nil => exact absurd h (splitOnSep_ne_nil sep a)
    | cons t ts => by_cases hc : c = sep <;> simp [hc]

theorem map_false_eq_replicate {α : Type} (l : List α) :
    (l.map fun _ => false) = List.replicate l.length false := by
  induction l with
  | nil => rfl
  | cons x l ih => simp [ih, List.replicate_succ]

theorem zipWith_or_replicate_false_left (w : List Bool) (n : Nat) (h : w.length ≤ n) :
    List.zipWith or (List.replicate n false) w = w := by
  induction w generalizing n with
  | nil => cases n <;> rfl
  | cons x w ih =>
    cases n with
    | zero => simp at h
    | succ n =>
      simp only [List.replicate_succ, List.zipWith_cons_cons, Bool.false_or]
      rw [ih n (by simp only [List.length_cons] at h; omega)]

theorem zipWith_or_replicate_false_right (z : List Bool) (n : Nat) (h : z.length ≤ n) :
    List.zipWith or z (List.replicate n false) = z := by
  induction z generalizing n with
  | nil => rfl
  | cons x z ih =>
    cases n with
    | zero => simp at h
    | succ n =>
      simp only [List.replicate_succ, List.zipWith_cons_cons, Bool.or_false]
      rw [ih n (by simp only [List.length_cons] at h; omega)]

theorem map_or_split {α : Type} (l : List α) (f g : α → Bool) :
    l.map (fun x => f x || g x) = List.zipWith or (l.map f) (l.map g) := by
  induction l with
  | nil => rfl
  | cons x l ih => simp only [List.map_cons, List.zipWith_cons_cons, ih]

theorem zipWith_or_assoc (a b c : List Bool) :
    List.zipWith or (List.zipWith or a b) c = List.zipWith or a (List.zipWith or b c) := by
  induction a generalizing b c with
  | nil => rfl
  | cons x a ih =>
    cases b with
    | nil => rfl
    | cons y b =>
      cases c with
      | nil => rfl
      | cons z c =>
        simp only [List.zipWith_cons_cons]
        rw [ih, Bool.or_assoc]

theorem zipWith_and_or_distrib (a b c : List Bool) :
    List.zipWith and (List.zipWith or a b) c =
    List.zipWith or (List.zipWith and a c) (List.zipWith and b c) := by
  induction a generalizing b c with
  | nil => rfl
  | cons x a ih =>
    cases b with
    | nil => cases c <;> rfl
    | cons y b =>
      cases c with
      | nil => rfl
      | cons z c =>
        simp only [List.zipWith_cons_cons]
        rw [ih]
        congr 1
        cases x <;> cases y <;> cases z <;> rfl

theorem unionConstraint_fold (types toks : List (List Char)) :
    ∀ z : List Bool, z.length = types.length →
    toks.foldl (fun acc tok => List.zipWith or acc (types.map (fun ty => tokMatch tok ty))) z =
    List.zipWith or z (types.map (fun ty => toks.any (fun tok => tokMatch tok ty))) := by
  induction toks with
  | nil =>
    intro z hz
    simp only [List.foldl_nil, List.any_nil]
    rw [map_false_eq_replicate]
    exact (zipWith_or_replicate_false_right z _ (Nat.le_of_eq hz)).symm
  | cons tok toks ih =>
    intro z hz
    simp only [List.foldl_cons]
    rw [ih _ (by simp [hz])]
    rw [zipWith_or_assoc]
    have hmap : types.map (fun ty => (tok :: toks).any (fun tk => tokMatch tk ty)) =
        List.zipWith or (types.map (fun ty => tokMatch tok ty))
          (types.map (fun ty => toks.any (fun tk => tokMatch tk ty))) := by
      rw [← map_or_split]
      simp only [List.any_cons]
    rw [hmap]

theorem unionConstraint_eq_map (types toks : List (List Char)) :
    unionConstraint types toks =
    types.map (fun ty => toks.any (fun tok => tokMatch tok ty)) := by
  unfold unionConstraint
  rw [unionConstraint_fold types toks _ (by simp)]
  rw [map_false_eq_replicate]
  exact zipWith_or_replicate_false_left _ types.length (by simp)

/-- C7: for every trial-type vector, tier vector, and tier filter, the
mask built by get_constraint for the union expression A pipe B equals
the elementwise OR of the masks built for A and for B, with the same
tier filter applied to each. -/
theorem getConstraint_union_or (types tiers : List (List Char)) (a b : List Char)
    (tier : Option (List Char)) :
    getConstraint types tiers (a ++ '|' :: b) tier =
    List.zipWith or (getConstraint types tiers a tier) (getConstraint types tiers b tier) := by
  have hu : unionConstraint types ((splitOnSep '|' (a ++ '|' :: b)).map trimChars) =
      List.zipWith or (unionConstraint types ((splitOnSep '|' a).map trimChars))
        (unionConstraint types ((splitOnSep '|' b).map trimChars)) := by
    rw [splitOnSep_append, List.map_append]
    rw [unionConstraint_eq_map, unionConstraint_eq_map, unionConstraint_eq_map]
    rw [← map_or_split]
    simp only [List.any_append]
  cases tier with
  | none => simpa only [getConstraint] using hu
  | some t =>
    simp only [getConstraint]
    rw [hu, zipWith_and_or_distrib]

/-- C4 counterexample: an empty stimulus-type expression does not raise;
get_constraint silently returns a mask, here the all-false mask. -/
theorem getConstraint_empty_counterexample :
    getConstraint ["stimulus.Clip".data] ["train".data] [] none = [false] := by decide

/-- C4 amended: mask construction has no failure path at all; an empty
stimulus-type expression silently yields the all-false mask whenever no
trial type is the empty string. -/
theorem getConstraint_empty_silent (types tiers : List (List Char))
    (h : ∀ ty ∈ types, ty ≠ ([] : List Char)) :
    getConstraint types tiers [] none = types.map (fun _ => false) := by
  simp only [getConstraint]
  rw [unionConstraint_eq_map]
  refine List.map_congr_left ?_
  intro ty hty
  have hne := h ty hty
  simp [splitOnSep, trimChars, tokMatch, hne]

theorem getConstraint_empty_silent_witness :
    (∀ ty ∈ ([['a'], ['b']] : List (List Char)), ty ≠ ([] : List Char)) ∧
    getConstraint [['a'], ['b']] [] [] none =
      ([['a'], ['b']] : List (List Char)).map (fun _ => false) :=
  ⟨by decide, getConstraint_empty_silent [['a'], ['b']] [] (by decide)⟩

theorem countTrue_nil : countTrue [] = 0 := rfl

theorem countTrue_cons (b : Bool) (c : List Bool) :
    countTrue (b :: c) = (if b then 1 else 0) + countTrue c := by
  cases b <;> simp [countTrue, List.count_cons] <;> omega

theorem length_truncAux (m : Nat) (c : List Bool) :
    ∀ acc : Nat, (truncAux m acc c).length = c.length := by
  induction c with
  | nil => intro acc; rfl
  | cons b rest ih => intro acc; simp [truncAux, ih]

theorem length_truncMask (c : List Bool) (m : Nat) :
    (truncMask c m).length = c.length := length_truncAux m c 0

theorem countTrue_truncAux (m : Nat) (c : List Bool) :
    ∀ acc : Nat, countTrue (truncAux m acc c) = min (countTrue c) (m - acc) := by
  induction c with
  | nil => intro acc; simp [truncAux, countTrue_nil]
  | cons b rest ih =>
    intro acc
    cases b with
    | false =>
      simp only [truncAux, Bool.false_and, countTrue_cons]
      rw [ih]
      simp
    | true =>
      simp only [truncAux, Bool.true_and, countTrue_cons]
      rw [ih]
      by_cases h : acc + 1 ≤ m
      · simp [h]
        omega
      · simp [h]
        omega

theorem countTrue_truncMask (c : List Bool) (m : Nat) :
    countTrue (truncMask c m) = min (countTrue c) m := by
  simpa using countTrue_truncAux m c 0

theorem truncAux_le (m : Nat) (c : List Bool) :
    ∀ (acc i : Nat), (truncAux m acc c).getD i false = true → c.getD i false = true := by
  induction c with
  | nil => intro acc i h; simpa [truncAux] using h
  | cons b rest ih =>
    intro acc i h
    cases i with
    | zero =>
      simp only [truncAux, List.getD_cons_zero, Bool.and_eq_true] at h
      simpa [List.getD_cons_zero] using h.1
    | succ i =>
      simp only [truncAux, List.getD_cons_succ] at h
      simpa [List.getD_cons_succ] using ih _ i h

theorem truncMask_le (c : List Bool) (m : Nat) :
    ∀ i, (truncMask c m).getD i false = true → c.getD i false = true :=
  truncAux_le m c 0

theorem applyUntouched_of_disjoint (c : List Bool) :
    ∀ (d d2 : List Bool), d.length = c.length → d2.length = d.length →
    (∀ i, d2.getD i false = true → d.getD i false = true) →
    maskDisjoint d c = true →
    applyUntouched (untouchedVec d d2) c = c := by
  induction c with
  | nil => intro d d2 _ _ _ _; rfl
  | cons x c ih =>
    intro d d2 hlen hlen2 hle hdisj
    cases d with
    | nil => simp at hlen
    | cons y d =>
      cases d2 with
      | nil => simp at hlen2
      | cons z d2 =>
        simp only [maskDisjoint, List.zipWith_cons_cons, List.all_cons, Bool.and_eq_true] at hdisj
        simp only [untouchedVec, applyUntouched, List.zipWith_cons_cons]
        simp only [List.length_cons, Nat.add_right_cancel_iff] at hlen hlen2
        have htail : List.zipWith and c (List.zipWith (fun x y => x == y) d d2) = c := by
          have hle2 : ∀ i, d2.getD i false = true → d.getD i false = true := by
            intro i hi
            have := hle (i + 1) (by simpa [List.getD_cons_succ] using hi)
            simpa [List.getD_cons_succ] using this
          simpa [applyUntouched, untouchedVec] using ih d d2 hlen hlen2 hle2 hdisj.2
        rw [htail]
        have hhead : (x && (y == z)) = x := by
          cases hx : x with
          | false => simp
          | true =>
            have hy : y = false := by
              have h1 := hdisj.1
              cases y with
              | false => rfl
              | true => simp [hx] at h1
            have hz : z = false := by
              cases hz2 : z with
              | false => rfl
              | true =>
                have := hle 0 (by simp [List.getD_cons_zero, hz2])
                simp [List.getD_cons_zero, hy] at this
            simp [hy, hz]
        rw [hhead]

theorem maskDisjoint_applyUntouched (x : List Bool) :
    ∀ (u c : List Bool), maskDisjoint x c = true →
    maskDisjoint (applyUntouched u x) c = true := by
  induction x with
  | nil => intro u c _; rfl
  | cons a x ih =>
    intro u c h
    cases u with
    | nil => simp [applyUntouched, maskDisjoint]
    | cons b u =>
      cases c with
      | nil => simp [applyUntouched, maskDisjoint]
      | cons w c =>
        simp only [applyUntouched, maskDisjoint, List.zipWith_cons_cons, List.all_cons,
          Bool.and_eq_true] at h ⊢
        refine ⟨?_, ih u c h.2⟩
        have h1 := h.1
        cases a <;> cases b <;> cases w <;> simp_all

theorem map_eq_self_of_mem {α : Type} (l : List α) (f : α → α) (h : ∀ a ∈ l, f a = a) :
    l.map f = l := by
  induction l with
  | nil => rfl
  | cons x l ih =>
    simp only [List.map_cons, h x (by simp)]
    rw [ih (fun a ha => h a (by simp [ha]))]

theorem foldMin_le (vs : List Nat) :
    ∀ v : Nat, foldMin v vs ≤ v ∧ ∀ x ∈ vs, foldMin v vs ≤ x := by
  induction vs with
  | nil => intro v; simp [foldMin]
  | cons w vs ih =>
    intro v
    have hstep : foldMin v (w :: vs) = foldMin (min v w) vs := rfl
    have h := ih (min v w)
    constructor
    · exact le_trans h.1 (min_le_left v w)
    · intro x hx
      rcases List.mem_cons.mp hx with h1 | h1
      · rw [h1]
        exact hstep ▸ le_trans h.1 (min_le_right v w)
      · exact hstep ▸ h.2 x h1

theorem foldMin_mem (vs : List Nat) :
    ∀ v : Nat, foldMin v vs = v ∨ foldMin v vs ∈ vs := by
  induction vs with
  | nil => intro v; left; rfl
  | cons w vs ih =>
    intro v
    have hstep : foldMin v (w :: vs) = foldMin (min v w) vs := rfl
    rcases ih (min v w) with h | h
    · rcases Nat.le_total v w with hvw | hwv
      · left
        rw [hstep, h, min_eq_left hvw]
      · right
        rw [hstep, h, min_eq_right hwv]
        exact List.mem_cons_self w vs
    · right
      rw [hstep]
      exact List.mem_cons_of_mem w h

theorem minTrueCount_le (ms : List (List Bool)) :
    ∀ c ∈ ms, minTrueCount ms ≤ countTrue c := by
  cases ms with
  | nil => intro c hc; simp at hc
  | cons c0 ms =>
    intro c hc
    have hdef : minTrueCount (c0 :: ms) = foldMin (countTrue c0) (ms.map countTrue) := rfl
    have h := foldMin_le (ms.map countTrue) (countTrue c0)
    rcases List.mem_cons.mp hc with h1 | h1
    · subst h1; exact hdef ▸ h.1
    · exact hdef ▸ h.2 _ (List.mem_map_of_mem countTrue h1)

theorem pairwise_zip_left {α β : Type} {R : α → α → Prop} :
    ∀ (l : List α) (l2 : List β), l.Pairwise R →
    (l.zip l2).Pairwise (fun p q => R p.1 q.1) := by
  intro l
  induction l with
  | nil => intro l2 _; simp
  | cons x l ih =>
    intro l2 hp
    cases l2 with
    | nil => simp
    | cons y l2 =>
      rw [List.zip_cons_cons]
      refine List.Pairwise.cons ?_ (ih l2 (List.pairwise_cons.mp hp).2)
      intro q hq
      obtain ⟨a, b⟩ := q
      exact (List.pairwise_cons.mp hp).1 a (List.of_mem_zip hq).1

theorem shrinkLoopAux_count (m : Nat) :
    ∀ (k : Nat) (l : List (List Bool × List Char)), l.length = k →
    (∀ p ∈ l, (('|' : Char) ∉ p.2) ∧ m ≤ countTrue p.1) →
    List.Pairwise (fun p q => p.1.length = q.1.length ∧ maskDisjoint p.1 q.1 = true) l →
    ∀ out ∈ shrinkLoopAux m k l, countTrue out = m := by
  intro k
  induction k with
  | zero =>
    intro l _ _ _ out hout
    cases l with
    | nil => simp [shrinkLoopAux] at hout
    | cons p l => simp [shrinkLoopAux] at hout
  | succ k ih =>
    intro l hl hmem hpw out hout
    cases l with
    | nil => simp [shrinkLoopAux] at hout
    | cons p rest =>
      obtain ⟨c, st⟩ := p
      have hbar : ('|' : Char) ∉ st := (hmem (c, st) (by simp)).1
      have hcount : m ≤ countTrue c := (hmem (c, st) (by simp)).2
      simp only [shrinkLoopAux, if_neg hbar] at hout
      have hrest : rest.map
          (fun p => (applyUntouched (untouchedVec c (truncMask c m)) p.1, p.2)) = rest := by
        apply map_eq_self_of_mem
        intro q hq
        have hrel := (List.pairwise_cons.mp hpw).1 q hq
        have happ : applyUntouched (untouchedVec c (truncMask c m)) q.1 = q.1 :=
          applyUntouched_of_disjoint q.1 c (truncMask c m) hrel.1
            (length_truncMask c m) (truncMask_le c m) hrel.2
        rw [happ]
      rw [hrest] at hout
      rcases List.mem_cons.mp hout with h1 | h1
      · rw [h1, countTrue_truncMask]
        exact min_eq_right hcount
      · refine ih rest (by simpa using hl) ?_ (List.pairwise_cons.mp hpw).2 out h1
        intro q hq
        exact hmem q (List.mem_cons_of_mem _ hq)

theorem shrinkLoopAux_union_preserved (m : Nat) :
    ∀ (k : Nat) (pre : List (List Bool × List Char)) (c : List Bool) (e : List Char)
      (post : List (List Bool × List Char)),
      k = (pre ++ (c, e) :: post).length →
      ('|' : Char) ∈ e →
      (∀ p ∈ pre, p.1.length = c.length ∧ maskDisjoint p.1 c = true) →
      (shrinkLoopAux m k (pre ++ (c, e) :: post)).getD pre.length [] = c := by
  intro k
  induction k with
  | zero =>
    intro pre c e post hk _ _
    simp at hk
    omega
  | succ k ih =>
    intro pre c e post hk hbar hpre
    cases pre with
    | nil =>
      simp only [List.nil_append, shrinkLoopAux, if_pos hbar, List.length_nil]
      rfl
    | cons d pre =>
      obtain ⟨dm, de⟩ := d
      have hd := hpre (dm, de) (by simp)
      have hlen2 : (if ('|' : Char) ∈ de then dm else truncMask dm m).length = dm.length := by
        by_cases hb2 : ('|' : Char) ∈ de
        · simp [hb2]
        · simp [hb2, length_truncMask]
      have hle2 : ∀ i, (if ('|' : Char) ∈ de then dm else truncMask dm m).getD i false = true →
          dm.getD i false = true := by
        by_cases hb2 : ('|' : Char) ∈ de
        · intro i
          simp only [if_pos hb2]
          exact fun h => h
        · intro i
          simp only [if_neg hb2]
          exact truncMask_le dm m i
      have happc : applyUntouched
          (untouchedVec dm (if ('|' : Char) ∈ de then dm else truncMask dm m)) c = c :=
        applyUntouched_of_disjoint c dm _ hd.1 hlen2 hle2 hd.2
      simp only [List.cons_append, shrinkLoopAux, List.length_cons, List.getD_cons_succ,
        List.append_eq]
      rw [List.map_append, List.map_cons]
      simp only [happc]
      have hrec := ih
        (pre.map (fun p =>
          (applyUntouched
            (untouchedVec dm (if ('|' : Char) ∈ de then dm else truncMask dm m)) p.1, p.2)))
        c e
        (post.map (fun p =>
          (applyUntouched
            (untouchedVec dm (if ('|' : Char) ∈ de then dm else truncMask dm m)) p.1, p.2)))
        (by simp only [List.length_append, List.length_map, List.length_cons] at hk ⊢; omega)
        hbar
        ?_
      · simpa only [List.length_map] using hrec
      · intro p hp
        obtain ⟨q, hq, rfl⟩ := List.mem_map.mp hp
        have hq2 := hpre q (List.mem_cons_of_mem _ hq)
        constructor
        · simp only [applyUntouched, List.length_zipWith, untouchedVec]
          rw [hlen2, min_self, hd.1, hq2.1, min_self]
        · exact maskDisjoint_applyUntouched q.1 _ c hq2.2

/-- C5 counterexample: a mask whose expression contains a union is not
always returned equal to its input: an earlier truncated mask that
overlaps it modifies it through the untouched cascade before its own
step runs. -/
theorem union_mask_modified_counterexample :
    (('|' : Char) ∈ (['A', '|', 'B'] : List Char)) ∧
    (equalize [[true,true,true,true,false,false], [false,false,false,true,true,true]]
      [['A'], ['A','|','B']]).getD 1 [] ≠ [false,false,false,true,true,true] := by decide

/-- C5 amended: a union mask is never truncated by its own step; it is
returned exactly equal to its input whenever every earlier mask is
disjoint from it, in particular when it is processed first. Earlier
truncated masks that overlap it can still modify it through the
untouched cascade. -/
theorem union_mask_preserved (m : Nat) (pre : List (List Bool × List Char)) (c : List Bool)
    (e : List Char) (post : List (List Bool × List Char))
    (hbar : ('|' : Char) ∈ e)
    (hpre : ∀ p ∈ pre, p.1.length = c.length ∧ maskDisjoint p.1 c = true) :
    (shrinkLoop m (pre ++ (c, e) :: post)).getD pre.length [] = c :=
  shrinkLoopAux_union_preserved m (pre ++ (c, e) :: post).length pre c e post rfl hbar hpre

theorem union_mask_preserved_witness :
    (('|' : Char) ∈ (['A', '|', 'B'] : List Char)) ∧
    (∀ p ∈ ([([true,true,false,false], ['A'])] : List (List Bool × List Char)),
      p.1.length = ([false,false,true,true] : List Bool).length ∧
      maskDisjoint p.1 [false,false,true,true] = true) ∧
    (shrinkLoop 1 ([([true,true,false,false], ['A'])] ++
      ([false,false,true,true], ['A','|','B']) :: [])).getD
      ([([true,true,false,false], ['A'])] : List (List Bool × List Char)).length [] =
      [false,false,true,true] :=
  ⟨by decide, by decide,
    union_mask_preserved 1 [([true,true,false,false], ['A'])] [false,false,true,true]
      ['A','|','B'] [] (by decide) (by decide)⟩

/-- C6: the equalizer output depends on the processing order: three
non-union masks over 10 trials, the first two sharing their first five
true positions, where min_n equal to 4 truncates inside that shared
block, give a different third-mask result when the third mask is
processed first. -/
theorem equalize_order_dependent :
    ∃ (m1 m2 m3 : List Bool) (e1 e2 e3 : List Char),
      (('|' : Char) ∉ e1) ∧ (('|' : Char) ∉ e2) ∧ (('|' : Char) ∉ e3) ∧
      m1.length = 10 ∧ m2.length = 10 ∧ m3.length = 10 ∧
      (trueIndices m1).take 5 = (trueIndices m2).take 5 ∧
      minTrueCount [m1, m2, m3] = 4 ∧
      (equalize [m1, m2, m3] [e1, e2, e3]).getD 2 [] ≠
        (equalize [m3, m1, m2] [e3, e1, e2]).getD 0 [] := by
  refine ⟨[true,true,true,true,true,false,false,false,false,false],
    [true,true,true,true,true,true,false,false,false,false],
    [false,false,false,true,true,true,true,false,false,false],
    ['A'], ['B'], ['C'], ?_⟩
  decide

/-- C2 counterexample: two overlapping non-union masks with true counts
4 and 3: after equalization under the train tier the outputs have
cardinalities 3 and 2, not all equal to the pre-equalization minimum 3,
because the first truncation removes a trial the second mask needed. -/
theorem equalize_overlap_counterexample :
    (('|' : Char) ∉ (['A'] : List Char)) ∧ (('|' : Char) ∉ (['B'] : List Char)) ∧
    minTrueCount [[true,true,true,true,false], [false,false,true,true,true]] = 3 ∧
    (shrinkToSameSize true (some "train".data)
      [[true,true,true,true,false], [false,false,true,true,true]]
      [['A'], ['B']]).map countTrue = [3, 2] := by decide

/-- C2 amended: when the input masks are pairwise disjoint and of equal
length, equalization under a qualifying tier gives every output mask
cardinality equal to the pre-equalization minimum; with overlapping
masks the untouched cascade can push a later mask below that minimum. -/
theorem shrink_equalizes_disjoint (tier : Option (List Char))
    (htier : tier = none ∨ tier = some "train".data ∨ tier = some "validation".data)
    (ms : List (List Bool)) (es : List (List Char))
    (hlen : es.length = ms.length) (htwo : 2 ≤ ms.length)
    (hnb : ∀ e ∈ es, ('|' : Char) ∉ e)
    (hpw : List.Pairwise (fun a b => a.length = b.length ∧ maskDisjoint a b = true) ms) :
    ∀ out ∈ shrinkToSameSize true tier ms es, countTrue out = minTrueCount ms := by
  intro out hout
  rw [shrinkToSameSize, if_pos ⟨rfl, htier⟩] at hout
  refine shrinkLoopAux_count (minTrueCount ms) (ms.zip es).length (ms.zip es) rfl ?_ ?_ out hout
  · intro p hp
    obtain ⟨a, b⟩ := p
    obtain ⟨ha, hb⟩ := List.of_mem_zip hp
    exact ⟨hnb b hb, minTrueCount_le ms a ha⟩
  · exact pairwise_zip_left ms es hpw

theorem shrink_equalizes_disjoint_witness :
    ((some "train".data : Option (List Char)) = none ∨
      (some "train".data : Option (List Char)) = some "train".data ∨
      (some "train".data : Option (List Char)) = some "validation".data) ∧
    ([['A'], ['B']] : List (List Char)).length =
      ([[true,true,false,false,false], [false,false,true,true,true]] : List (List Bool)).length ∧
    2 ≤ ([[true,true,false,false,false], [false,false,true,true,true]] : List (List Bool)).length ∧
    (∀ e ∈ ([['A'], ['B']] : List (List Char)), ('|' : Char) ∉ e) ∧
    List.Pairwise (fun a b => a.length = b.length ∧ maskDisjoint a b = true)
      ([[true,true,false,false,false], [false,false,true,true,true]] : List (List Bool)) ∧
    (∀ out ∈ shrinkToSameSize true (some "train".data)
        [[true,true,false,false,false], [false,false,true,true,true]] [['A'], ['B']],
      countTrue out = minTrueCount [[true,true,false,false,false], [false,false,true,true,true]]) :=
  ⟨by decide, by decide, by decide, by decide, by decide,
    shrink_equalizes_disjoint (some "train".data) (by decide)
      [[true,true,false,false,false], [false,false,true,true,true]] [['A'], ['B']]
      (by decide) (by decide) (by decide) (by decide)⟩

theorem sum_map_const_nat {α : Type} (l : List α) (q : Nat) :
    (l.map fun _ => q).sum = l.length * q := by
  induction l with
  | nil => simp
  | cons x l ih =>
    simp only [List.map_cons, List.sum_cons, List.length_cons, ih, Nat.succ_mul]
    omega

theorem groupSizes_length (T n : Nat) : (groupSizes T n).length = T := by
  simp [groupSizes]

theorem groupSizes_sum (T n : Nat) (hT : 1 ≤ T) : (groupSizes T n).sum = n := by
  have hrange : List.range T = List.range (T - 1) ++ [T - 1] := by
    conv_lhs => rw [show T = (T - 1) + 1 by omega]
    rw [List.range_succ]
  rw [groupSizes, hrange, List.map_append, List.sum_append]
  have h1 : ((List.range (T - 1)).map
      (fun i => if i < T - 1 then n / T else n - (T - 1) * (n / T))).sum =
      (T - 1) * (n / T) := by
    have hcongr : ∀ i ∈ List.range (T - 1),
        (if i < T - 1 then n / T else n - (T - 1) * (n / T)) = n / T := by
      intro i hi
      exact if_pos (List.mem_range.mp hi)
    rw [List.map_congr_left hcongr, sum_map_const_nat, List.length_range]
  have h2 : ([T - 1].map
      (fun i => if i < T - 1 then n / T else n - (T - 1) * (n / T))).sum =
      n - (T - 1) * (n / T) := by
    simp [if_neg (lt_irrefl (T - 1))]
  rw [h1, h2]
  have hq : n / T * T ≤ n := Nat.div_mul_le_self n T
  have hA : (T - 1) * (n / T) ≤ n := by
    have h3 : (T - 1) * (n / T) ≤ n / T * T := by
      rw [Nat.mul_comm (n / T) T]
      exact Nat.mul_le_mul_right (n / T) (Nat.sub_le T 1)
    exact le_trans h3 hq
  exact Nat.add_sub_cancel' hA

theorem groupSizes_getD_lt (T n i : Nat) (h : i < T - 1) :
    (groupSizes T n).getD i 0 = n / T := by
  rw [groupSizes, List.getD_eq_getElem?_getD, List.getElem?_map,
    List.getElem?_range (by omega : i < T)]
  simp [h]

theorem groupSizes_getD_last (T n : Nat) (hT : 1 ≤ T) :
    (groupSizes T n).getD (T - 1) 0 = n / T + n % T := by
  rw [groupSizes, List.getD_eq_getElem?_getD, List.getElem?_map,
    List.getElem?_range (by omega : T - 1 < T)]
  simp only [Option.map_some', Option.getD_some, lt_irrefl, if_false]
  have hdm := Nat.div_add_mod n T
  have hmul : T * (n / T) = (T - 1) * (n / T) + n / T := by
    calc T * (n / T) = (T - 1 + 1) * (n / T) := by rw [show T - 1 + 1 = T by omega]
    _ = (T - 1) * (n / T) + n / T := by rw [Nat.succ_mul]
  apply Nat.sub_eq_of_eq_add
  calc n = T * (n / T) + n % T := hdm.symm
  _ = ((T - 1) * (n / T) + n / T) + n % T := by rw [hmul]
  _ = (n / T + n % T) + (T - 1) * (n / T) := by ring

theorem length_flatten_zipWith_replicate (gs : List Nat) :
    ∀ ts : List (List Char), gs.length = ts.length →
    (List.flatten (List.zipWith List.replicate gs ts)).length = gs.sum := by
  induction gs with
  | nil => intro ts _; simp
  | cons g gs ih =>
    intro ts h
    cases ts with
    | nil => simp at h
    | cons t ts =>
      simp only [List.zipWith_cons_cons, List.flatten_cons, List.length_append,
        List.length_replicate, List.sum_cons]
      rw [ih ts (by simpa using h)]

/-- C3 counterexample: with three tokens and eight member datasets the
group sizes are [2, 2, 4]: the last group exceeds the others by two, so
group sizes do not differ by at most one. -/
theorem group_sizes_counterexample :
    groupSizes 3 8 = [2, 2, 4] ∧
    assignStimulusTypes [['x'], ['y'], ['z']] 8 0 =
      Except.ok [['x'],['x'],['y'],['y'],['z'],['z'],['z'],['z']] ∧
    ¬ (∀ a ∈ groupSizes 3 8, ∀ b ∈ groupSizes 3 8, a ≤ b + 1) :=
  ⟨by decide, by rfl, by decide⟩

/-- C3 amended: the group assignment is a partition of the n member
datasets into T contiguous groups, with each of the first T - 1 groups
of size n / T and the final group of size n / T + n % T, so the whole
remainder goes to the final group and sizes can differ by up to T - 1,
not at most one. -/
theorem assign_partition (t : List (List Char)) (n p : Nat)
    (h0 : t ≠ []) (h1 : 1 ≤ n / t.length) :
    ∃ l, assignStimulusTypes t n p = Except.ok l ∧
      l = List.flatten (List.zipWith List.replicate (groupSizes t.length n)
        (t.drop (p % t.length) ++ t.take (p % t.length))) ∧
      l.length = n ∧
      (∀ i, i < t.length - 1 → (groupSizes t.length n).getD i 0 = n / t.length) ∧
      (groupSizes t.length n).getD (t.length - 1) 0 = n / t.length + n % t.length := by
  have hT : 1 ≤ t.length := by
    cases t with
    | nil => exact absurd rfl h0
    | cons x t => simp
  have hok : assignStimulusTypes t n p = Except.ok (List.flatten (List.zipWith List.replicate
      (groupSizes t.length n) (t.drop (p % t.length) ++ t.take (p % t.length)))) := by
    simp only [assignStimulusTypes]
    rw [if_pos h1]
  refine ⟨_, hok, rfl, ?_, ?_, ?_⟩
  · rw [length_flatten_zipWith_replicate _ _ ?_, groupSizes_sum _ _ hT]
    rw [groupSizes_length, List.length_append, List.length_drop, List.length_take]
    have hp : p % t.length < t.length := Nat.mod_lt p hT
    omega
  · intro i hi
    exact groupSizes_getD_lt _ _ i hi
  · exact groupSizes_getD_last _ _ hT

theorem assign_partition_witness :
    (([['x'], ['y'], ['z']] : List (List Char)) ≠ []) ∧
    1 ≤ 8 / ([['x'], ['y'], ['z']] : List (List Char)).length ∧
    (∃ l, assignStimulusTypes [['x'], ['y'], ['z']] 8 0 = Except.ok l ∧
      l = List.flatten (List.zipWith List.replicate
        (groupSizes ([['x'], ['y'], ['z']] : List (List Char)).length 8)
        (([['x'], ['y'], ['z']] : List (List Char)).drop
            (0 % ([['x'], ['y'], ['z']] : List (List Char)).length) ++
          ([['x'], ['y'], ['z']] : List (List Char)).take
            (0 % ([['x'], ['y'], ['z']] : List (List Char)).length))) ∧
      l.length = 8 ∧
      (∀ i, i < ([['x'], ['y'], ['z']] : List (List Char)).length - 1 →
        (groupSizes ([['x'], ['y'], ['z']] : List (List Char)).length 8).getD i 0 =
          8 / ([['x'], ['y'], ['z']] : List (List Char)).length) ∧
      (groupSizes ([['x'], ['y'], ['z']] : List (List Char)).length 8).getD
          (([['x'], ['y'], ['z']] : List (List Char)).length - 1) 0 =
        8 / ([['x'], ['y'], ['z']] : List (List Char)).length +
          8 % ([['x'], ['y'], ['z']] : List (List Char)).length) :=
  ⟨by decide, by decide, assign_partition [['x'], ['y'], ['z']] 8 0 (by decide) (by decide)⟩

/-- C8: two tokens and seven member datasets give group sizes [3, 4];
without permutation the member token list is x, x, x, y, y, y, y, and
with permutation 1 the rotated token list gives y, y, y, x, x, x, x. -/
theorem assign_concrete_tokens :
    assignStimulusTypes [['x'], ['y']] 7 0 =
      Except.ok [['x'],['x'],['x'],['y'],['y'],['y'],['y']] ∧
    assignStimulusTypes [['x'], ['y']] 7 1 =
      Except.ok [['y'],['y'],['y'],['x'],['x'],['x'],['x']] ∧
    groupSizes 2 7 = [3, 4] :=
  ⟨by rfl, by rfl, by decide⟩

/-- C9: whenever the member count divided by the token count is below
one, the load_data assert fires: group assignment returns the
configuration error before any mask or sampler is built. -/
theorem assign_underflow_error (t : List (List Char)) (n p : Nat)
    (h0 : 0 < t.length) (h : n / t.length < 1) :
    assignStimulusTypes t n p = Except.error "not enough member datasets to do splits" := by
  simp only [assignStimulusTypes]
  rw [if_neg (by omega)]

theorem assign_underflow_error_witness :
    0 < ([['x'], ['y'], ['z']] : List (List Char)).length ∧
    2 / ([['x'], ['y'], ['z']] : List (List Char)).length < 1 ∧
    assignStimulusTypes [['x'], ['y'], ['z']] 2 0 =
      Except.error "not enough member datasets to do splits" :=
  ⟨by decide, by decide, assign_underflow_error [['x'], ['y'], ['z']] 2 0 (by decide) (by decide)⟩

/-- C1 counterexample: for an index list whose coalesced categories have
counts 3 and 7, the shortest-mode balanced sampler has length 3, the
minimum per-category count, not 2 * 3 = 6. -/
theorem balanced_length_counterexample :
    (mkBalancedSubsetSampler (List.range 10) [0,0,0,1,1,1,1,1,1,1]
      SamplingMode.shortest).map BalancedSampler.num_samples = some 3 ∧
    (mkBalancedSubsetSampler (List.range 10) [0,0,0,1,1,1,1,1,1,1]
      SamplingMode.shortest).map BalancedSampler.num_samples ≠ some (2 * 3) := by decide

/-- C1 amended: in shortest mode the balanced sampler length equals the
minimum per-category count of the selected indices: it is at most every
category count and is attained by some category. The construction is a
pure function of the index and type lists, so the length is
deterministic across repeated constructions. -/
theorem balanced_shortest_length {α : Type} [DecidableEq α] [Inhabited α]
    (indices : List Nat) (types : List α) (m : Nat)
    (h : (mkBalancedSubsetSampler indices types SamplingMode.shortest).map
      BalancedSampler.num_samples = some m) :
    (∀ k ∈ categoryCounts indices types, m ≤ k) ∧ m ∈ categoryCounts indices types := by
  cases hc : categoryCounts indices types with
  | nil =>
    exfalso
    simp [mkBalancedSubsetSampler, hc] at h
  | cons v vs =>
    have h' : foldMin v vs = m := by
      simpa [mkBalancedSubsetSampler, hc] using h
    constructor
    · intro k hk
      rw [← h']
      rcases List.mem_cons.mp hk with h1 | h1
      · rw [h1]
        exact (foldMin_le vs v).1
      · exact (foldMin_le vs v).2 k h1
    · rw [← h']
      rcases foldMin_mem vs v with h2 | h2
      · rw [h2]
        exact List.mem_cons_self v vs
      · exact List.mem_cons_of_mem v h2

theorem balanced_shortest_length_witness :
    (mkBalancedSubsetSampler (List.range 10) [0,0,0,1,1,1,1,1,1,1]
      SamplingMode.shortest).map BalancedSampler.num_samples = some 3 ∧
    ((∀ k ∈ categoryCounts (List.range 10) [0,0,0,1,1,1,1,1,1,1], 3 ≤ k) ∧
      3 ∈ categoryCounts (List.range 10) [0,0,0,1,1,1,1,1,1,1]) :=
  ⟨by decide, balanced_shortest_length (List.range 10) [0,0,0,1,1,1,1,1,1,1] 3 (by decide)⟩

/-- C10: with the train tier, balanced set, and merge_noise_types unset,
the sampler construction of get_loaders fails on the unbound local
types variable, for every constraint mask and dataset type vector: no
balanced loader can be produced in that configuration. -/
theorem balanced_without_merge_unbound (constraint : List Bool)
    (dataset_types : List (List Char)) :
    chooseSampler (some "train".data) true false constraint dataset_types =
      Except.error "UnboundLocalError: types" := rfl
